import Mathlib

/-!
# Verification of the flat-octree addressing engine

Shallow embedding of the `flat-octree` Rust crate: size model (`util.rs`),
the depth-first and breadth-first memory layouts (`lib.rs`), and the
octree store / node navigation (`octree.rs`).  Buffers are modelled as
`List T`, pointers as absolute element indices into the buffer, and
`usize` arithmetic as `Nat` (with an explicit wrapping variant where
overflow matters).
-/

namespace FlatOctree

/-- Octant values (`octant.rs`): 8 values carrying a 3-bit index 0..7. -/
inductive Octant : Type
  | LDF
  | RDF
  | LUF
  | RUF
  | LDB
  | RDB
  | LUB
  | RUB
  deriving DecidableEq, Repr

/-- `Octant::as_usize` — octant as its 3-bit index (`octant.rs`). -/
def Octant.as_usize : Octant → Nat
  | .LDF => 0
  | .RDF => 1
  | .LUF => 2
  | .RUF => 3
  | .LDB => 4
  | .RDB => 5
  | .LUB => 6
  | .RUB => 7

/-- `Octant::try_from` restricted to in-range values (`octant.rs`):
inverse of `as_usize` on `0..8`. -/
def octant_of_usize : Nat → Octant
  | 0 => .LDF
  | 1 => .RDF
  | 2 => .LUF
  | 3 => .RUF
  | 4 => .LDB
  | 5 => .RDB
  | 6 => .LUB
  | _ => .RUB

/-- `Octant::ALL` (`octant.rs`). -/
def Octant.ALL : List Octant :=
  [.LDF, .RDF, .LUF, .RUF, .LDB, .RDB, .LUB, .RUB]

instance : Fintype Octant where
  elems := ⟨Octant.ALL, by decide⟩
  complete := by intro o; cases o <;> decide

lemma Octant.as_usize_lt (o : Octant) : o.as_usize < 8 := by
  cases o <;> decide

lemma octant_of_as_usize (o : Octant) : octant_of_usize o.as_usize = o := by
  cases o <;> rfl

lemma as_usize_octant_of (n : Nat) (h : n < 8) :
    (octant_of_usize n).as_usize = n := by
  interval_cases n <;> rfl

lemma Octant.as_usize_injective : Function.Injective Octant.as_usize := by
  intro a b h
  cases a <;> cases b <;> simp_all [Octant.as_usize]

/-- `layer_length` (`util.rs`): number of nodes at the given depth/height. -/
def layer_length (depth : Nat) : Nat := 8 ^ depth

/-- `subtree_length` (`util.rs`): the accumulation loop
`accum = 1; repeat depth times { accum *= 8; accum += 1 }`. -/
def subtree_length : Nat → Nat
  | 0 => 1
  | d + 1 => 8 * subtree_length d + 1

/-- `subtree_size` (`util.rs`): `subtree_length(depth) * size_of::<T>()`. -/
def subtree_size (sizeofT depth : Nat) : Nat :=
  subtree_length depth * sizeofT

/-- `subtree_length` under wrapping (release-mode) `usize` arithmetic on a
`w`-bit platform: every `*` and `+` is taken modulo `2^w`. -/
def subtree_length_wrap (w : Nat) : Nat → Nat
  | 0 => 1 % 2 ^ w
  | d + 1 => (8 * subtree_length_wrap w d % 2 ^ w + 1) % 2 ^ w

lemma subtree_length_pos (d : Nat) : 0 < subtree_length d := by
  cases d <;> simp [subtree_length]

/-- `7 * SubtreeLength(d) = 8^(d+1) - 1`. -/
lemma seven_mul_subtree_length (d : Nat) :
    7 * subtree_length d = 8 ^ (d + 1) - 1 := by
  induction d with
  | zero => rfl
  | succ n ih =>
    have h1 : (0:Nat) < 8 ^ (n + 1) := Nat.pos_pow_of_pos _ (by norm_num)
    have h2 : 8 ^ (n + 1 + 1) = 8 * 8 ^ (n + 1) := by ring
    simp only [subtree_length]
    omega

lemma pow_succ_eq_subtree (d : Nat) :
    8 ^ (d + 1) = 7 * subtree_length d + 1 := by
  have := seven_mul_subtree_length d
  have h1 : (0:Nat) < 8 ^ (d + 1) := Nat.pos_pow_of_pos _ (by norm_num)
  omega

lemma subtree_length_closed_form (d : Nat) :
    subtree_length d = (8 ^ (d + 1) - 1) / 7 := by
  have h := seven_mul_subtree_length d
  omega

/-! ## Memory layouts (`lib.rs`, module `layout`) -/

namespace DepthFirst

/-- `DepthFirst::child_offset` (`lib.rs`): `1` at depth 0; otherwise
`1 + subtree_length(depth-1) * octant.as_usize()`.  `size` and `index`
are ignored by this layout. -/
def child_offset (octant : Octant) (size depth index : Nat) : Nat :=
  if depth = 0 then 1
  else
    let end_of_current := 1
    let start_of_next := subtree_length (depth - 1) * octant.as_usize
    end_of_current + start_of_next

end DepthFirst

namespace BreathFirst

/-- `BreathFirst::child_offset::<T>` (`lib.rs`): `size_of::<T>()` at depth 0;
otherwise skip the remainder of the current layer and step into the child
layer:  `(layer_length(size-depth) - index) + (index*8 + octant)`. -/
def child_offset (sizeofT : Nat) (octant : Octant) (size depth index : Nat) :
    Nat :=
  if depth = 0 then sizeofT
  else
    let height := size - depth
    let layer_size := layer_length height
    let end_of_current := layer_size - index
    let start_of_next := index * 8 + octant.as_usize
    end_of_current + start_of_next

end BreathFirst

/-- Number of buffer elements before layer `h` under the breadth-first
layout: the `skip` computed by `Octree::layer_slice` (`octree.rs`),
`(0..h).map(layer_length).sum()`. -/
def layer_start (h : Nat) : Nat :=
  ((List.range h).map layer_length).sum

lemma layer_start_zero : layer_start 0 = 0 := rfl

lemma layer_start_succ (h : Nat) :
    layer_start (h + 1) = layer_start h + 8 ^ h := by
  simp [layer_start, List.range_succ, layer_length]

/-- The layers up to and including `d` fill exactly a subtree of depth `d`:
`layer_start (d+1) = subtree_length d`. -/
lemma layer_start_eq_subtree_length (d : Nat) :
    layer_start (d + 1) = subtree_length d := by
  induction d with
  | zero => rfl
  | succ n ih =>
    rw [layer_start_succ, ih]
    have := pow_succ_eq_subtree n
    simp only [subtree_length]
    omega

lemma layer_start_mono {a b : Nat} (h : a ≤ b) : layer_start a ≤ layer_start b := by
  induction b with
  | zero => simp_all
  | succ n ih =>
    rcases Nat.lt_or_ge a (n + 1) with hlt | hge
    · have hp : 0 < 8 ^ n := Nat.pos_pow_of_pos _ (by norm_num)
      exact le_trans (ih (by omega)) (by rw [layer_start_succ]; omega)
    · have : a = n + 1 := by omega
      subst this; rfl

/-- Absolute buffer index of the breadth-first node at height `h`, layer
index `i`. -/
def bf_node_addr (h i : Nat) : Nat := layer_start h + i

/-- The breadth-first child-address step: from the node at height `h`,
layer index `i < 8^h`, adding `child_offset` lands on the node at height
`h + 1`, layer index `i*8 + octant`. -/
lemma bf_child_addr_step (sizeofT : Nat) (o : Octant) (S d i : Nat)
    (hd : d ≠ 0) (hi : i < 8 ^ (S - d)) :
    bf_node_addr (S - d) i + BreathFirst.child_offset sizeofT o S d i =
      bf_node_addr (S - d + 1) (i * 8 + o.as_usize) := by
  simp only [BreathFirst.child_offset, if_neg hd, bf_node_addr, layer_length]
  rw [layer_start_succ]
  omega

/-! ## Buffer writes

A `Vec<T>` buffer is a `List T`; a raw pointer into it is an absolute
element index.  `base.add(i).write(v)` for `i in 0..len` becomes
`write_run`. -/

variable {T : Type}

/-- Write `v` into the `len` consecutive elements starting at index
`start` (the inner loops of both `fill` implementations in `lib.rs`). -/
def write_run (l : List T) (start len : Nat) (v : T) : List T :=
  match len with
  | 0 => l
  | n + 1 => write_run (l.set start v) (start + 1) n v

lemma write_run_length (l : List T) (start len : Nat) (v : T) :
    (write_run l start len v).length = l.length := by
  induction len generalizing l start with
  | zero => rfl
  | succ n ih => simp [write_run, ih]

lemma write_run_get? (l : List T) (start len : Nat) (v : T) (p : Nat) :
    (write_run l start len v).get? p =
      if start ≤ p ∧ p < start + len ∧ p < l.length then some v
      else l.get? p := by
  induction len generalizing l start with
  | zero =>
    simp only [write_run]
    rw [if_neg (by omega)]
  | succ n ih =>
    simp only [write_run]
    rw [ih]
    rcases Nat.decEq p start with hne | heq
    · rw [List.get?_set_ne _ _ (by omega)]
      simp only [List.length_set]
      by_cases h1 : start + 1 ≤ p ∧ p < start + 1 + n ∧ p < l.length
      · rw [if_pos h1, if_pos (by omega)]
      · rw [if_neg h1, if_neg (by omega)]
    · subst heq
      simp only [List.length_set]
      by_cases hlen : p < l.length
      · rw [if_neg (by omega), if_pos (by omega)]
        rw [List.get?_set_eq]
        rw [List.get?_eq_get hlen]
        rfl
      · rw [if_neg (by omega), if_neg (by omega)]
        have h1 : l.get? p = none := List.get?_eq_none.mpr (by omega)
        have h2 : (l.set p v).get? p = none :=
          List.get?_eq_none.mpr (by rw [List.length_set]; omega)
        rw [h1, h2]

/-! ## `DepthFirst::fill` (`lib.rs`) -/

namespace DepthFirst

/-- `DepthFirst::fill` (`lib.rs`): writes `value` into the
`subtree_size::<T>(depth) / size_of::<T>()` consecutive elements starting
at the node's own position. -/
def fill (sizeofT : Nat) (l : List T) (base : Nat) (value : T)
    (depth : Nat) : List T :=
  let tailing := subtree_size sizeofT depth / sizeofT
  write_run l base tailing value

end DepthFirst

/-! ## `BreathFirst::fill` (`lib.rs`) -/

namespace BreathFirst

/-- The `for i in 0..=depth` loop of `BreathFirst::fill` (`lib.rs`):
`iters` iterations remain, `i` is the loop counter, `start` the cursor. -/
def fill_go (value : T) (height index : Nat) :
    Nat → Nat → Nat → List T → List T
  | 0, _, _, l => l
  | iters + 1, i, start, l =>
    let fill_size := layer_length i
    let written := write_run l start fill_size value
    let layer_i := height + i
    let layer_size := layer_length layer_i
    let end_of_current := layer_size - (index + 1) * fill_size
    let skip_leading := index * fill_size * 8
    fill_go value height index iters (i + 1)
      (start + fill_size + end_of_current + skip_leading) written

/-- `BreathFirst::fill` (`lib.rs`): `base` is the absolute index of the
node's own slot; `size`, `depth`, `index` as in the trait contract. -/
def fill (l : List T) (base : Nat) (value : T) (size depth index : Nat) :
    List T :=
  fill_go value (size - depth) index (depth + 1) 0 base l

end BreathFirst

/-! ## Subtree address sets

The set of absolute buffer indices belonging to a node's subtree, derived
from the child addressing of each layout (`OctreeNode::child` follows
`L::child_offset`, and the child's layer index is `I*8 + octant`,
`octree.rs`). -/

/-- Buffer indices of the subtree of a depth-first node of remaining
depth `d` whose own slot is at absolute index `base`: the node itself
plus, per octant, the subtree reached through
`DepthFirst::child_offset` (which ignores `size` and `index`). -/
def df_subtree : Nat → Nat → Finset Nat
  | 0, base => {base}
  | d + 1, base =>
    {base} ∪ Finset.univ.biUnion fun o : Octant =>
      df_subtree d (base + DepthFirst.child_offset o 0 (d + 1) 0)

/-- Buffer indices of the subtree of a breadth-first node at height `h`,
remaining depth `d`, layer index `i`: the node's slot plus, per octant,
the subtree of the child at height `h+1`, layer index `i*8 + octant`. -/
def bf_subtree : Nat → Nat → Nat → Finset Nat
  | h, 0, i => {bf_node_addr h i}
  | h, d + 1, i =>
    {bf_node_addr h i} ∪ Finset.univ.biUnion fun o : Octant =>
      bf_subtree (h + 1) d (i * 8 + o.as_usize)

/-- A depth-first subtree is one contiguous run of `subtree_length d`
indices starting at the node's own slot. -/
lemma df_subtree_eq_Ico (d : Nat) : ∀ base : Nat,
    df_subtree d base = Finset.Ico base (base + subtree_length d) := by
  induction d with
  | zero =>
    intro base
    ext n
    simp only [df_subtree, Finset.mem_singleton, Finset.mem_Ico, subtree_length]
    omega
  | succ d ih =>
    intro base
    have hpos := subtree_length_pos d
    ext n
    simp only [df_subtree, Finset.mem_union, Finset.mem_singleton,
      Finset.mem_biUnion, Finset.mem_univ, true_and, ih, Finset.mem_Ico,
      DepthFirst.child_offset, if_neg (Nat.succ_ne_zero d),
      Nat.add_sub_cancel, subtree_length]
    constructor
    · rintro (rfl | ⟨o, h1, h2⟩)
      · omega
      · have := o.as_usize_lt
        have h3 : subtree_length d * o.as_usize + subtree_length d ≤
            8 * subtree_length d := by
          have := Nat.mul_le_mul_left (subtree_length d)
            (Nat.lt_succ_iff.mp o.as_usize_lt)
          omega
        omega
    · rintro ⟨h1, h2⟩
      rcases Nat.eq_or_lt_of_le h1 with rfl | hgt
      · exact Or.inl rfl
      · right
        set m := n - base - 1 with hm
        have hmlt : m < 8 * subtree_length d := by omega
        have hj : m / subtree_length d < 8 :=
          (Nat.div_lt_iff_lt_mul hpos).mpr (by omega)
        refine ⟨octant_of_usize (m / subtree_length d), ?_⟩
        rw [as_usize_octant_of _ hj]
        have hdm := Nat.div_add_mod m (subtree_length d)
        have hmod : m % subtree_length d < subtree_length d :=
          Nat.mod_lt _ hpos
        have hcomm : subtree_length d * (m / subtree_length d) =
            (m / subtree_length d) * subtree_length d := Nat.mul_comm _ _
        omega

/-- `DepthFirst::fill` writes `v` into exactly the node's subtree run and
leaves every other (in-bounds) element unchanged. -/
lemma df_fill_get? (sizeofT : Nat) (l : List T) (base : Nat) (v : T)
    (depth : Nat) (hs : 0 < sizeofT) (p : Nat) :
    (DepthFirst.fill sizeofT l base v depth).get? p =
      if p ∈ df_subtree depth base ∧ p < l.length then some v
      else l.get? p := by
  have htail : subtree_size sizeofT depth / sizeofT = subtree_length depth :=
    Nat.mul_div_cancel _ hs
  simp only [DepthFirst.fill, htail, write_run_get?, df_subtree_eq_Ico,
    Finset.mem_Ico]
  by_cases h : base ≤ p ∧ p < base + subtree_length depth ∧ p < l.length
  · rw [if_pos h, if_pos ⟨⟨h.1, h.2.1⟩, h.2.2⟩]
  · rw [if_neg h, if_neg (by tauto)]

lemma pow8_pos (k : Nat) : 0 < 8 ^ k := Nat.pos_pow_of_pos _ (by norm_num)

/-- With layer index `i < 8^h` and offset `r < 8^k` within the node's
share, the in-layer position `i*8^k + r` stays inside layer `h+k`. -/
lemma addr_lt_next_layer {h k i r : Nat} (hi : i < 8 ^ h) (hr : r < 8 ^ k) :
    i * 8 ^ k + r < 8 ^ (h + k) := by
  have h1 : (i + 1) * 8 ^ k ≤ 8 ^ h * 8 ^ k :=
    Nat.mul_le_mul_right _ (by omega)
  rw [← pow_add] at h1
  have h2 : (i + 1) * 8 ^ k = i * 8 ^ k + 8 ^ k := by ring
  omega

/-- Membership in a breadth-first subtree: `p` belongs to the subtree of
the node at height `h`, depth `d`, layer index `i` iff it is, for some
`k ≤ d`, one of the node's `8^k` slots at layer `h + k`. -/
lemma mem_bf_subtree (d : Nat) : ∀ (h i p : Nat),
    p ∈ bf_subtree h d i ↔
      ∃ k, k ≤ d ∧ ∃ r, r < 8 ^ k ∧
        p = layer_start (h + k) + i * 8 ^ k + r := by
  induction d with
  | zero =>
    intro h i p
    simp only [bf_subtree, Finset.mem_singleton, bf_node_addr]
    constructor
    · rintro rfl
      exact ⟨0, le_refl _, 0, by norm_num⟩
    · rintro ⟨k, hk, r, hr, rfl⟩
      interval_cases k
      simp only [pow_zero, Nat.lt_one_iff] at hr
      subst hr
      simp
  | succ d ih =>
    intro h i p
    simp only [bf_subtree, Finset.mem_union, Finset.mem_singleton,
      Finset.mem_biUnion, Finset.mem_univ, true_and, bf_node_addr, ih]
    constructor
    · rintro (rfl | ⟨o, k, hk, r, hr, rfl⟩)
      · exact ⟨0, by omega, 0, by norm_num⟩
      · refine ⟨k + 1, by omega, o.as_usize * 8 ^ k + r, ?_, ?_⟩
        · have := addr_lt_next_layer (h := 1) (k := k) o.as_usize_lt hr
          simpa [pow_add, pow_one, Nat.mul_comm] using this
        · have harg : h + 1 + k = h + (k + 1) := by omega
          rw [harg]
          have hmul : (i * 8 + o.as_usize) * 8 ^ k =
              i * 8 ^ (k + 1) + o.as_usize * 8 ^ k := by ring
          omega
    · rintro ⟨k, hk, r, hr, rfl⟩
      match k with
      | 0 =>
        left
        interval_cases r
        simp
      | k + 1 =>
        right
        have hq : r / 8 ^ k < 8 :=
          (Nat.div_lt_iff_lt_mul (pow8_pos k)).mpr
            (by have h8 : (8:Nat) ^ (k + 1) = 8 * 8 ^ k := by ring
                omega)
        refine ⟨octant_of_usize (r / 8 ^ k), k, by omega,
          r % 8 ^ k, Nat.mod_lt _ (pow8_pos k), ?_⟩
        rw [as_usize_octant_of _ hq]
        have hdm := Nat.div_add_mod r (8 ^ k)
        have harg : h + 1 + k = h + (k + 1) := by omega
        rw [harg]
        have hmul : (i * 8 + r / 8 ^ k) * 8 ^ k =
            i * 8 ^ (k + 1) + 8 ^ k * (r / 8 ^ k) := by ring
        omega

/-- Convenience: explicit layered form of a breadth-first subtree. -/
lemma bf_subtree_eq_biUnion (h d i : Nat) :
    bf_subtree h d i =
      (Finset.range (d + 1)).biUnion fun k =>
        (Finset.range (8 ^ k)).image
          fun r => layer_start (h + k) + i * 8 ^ k + r := by
  ext p
  simp only [mem_bf_subtree, Finset.mem_biUnion, Finset.mem_range,
    Finset.mem_image]
  constructor
  · rintro ⟨k, hk, r, hr, rfl⟩
    exact ⟨k, by omega, r, hr, rfl⟩
  · rintro ⟨k, hk, r, hr, rfl⟩
    exact ⟨k, by omega, r, hr, rfl⟩

/-- Sum of layer sizes `8^0 + ... + 8^d = subtree_length d`. -/
lemma sum_range_pow8 (d : Nat) :
    ∑ k ∈ Finset.range (d + 1), 8 ^ k = subtree_length d := by
  induction d with
  | zero => rfl
  | succ d ih =>
    rw [Finset.sum_range_succ, ih]
    have := pow_succ_eq_subtree d
    simp only [subtree_length]
    omega

/-- Every slot of a breadth-first subtree at layer `h+k` lies in the
buffer segment of that layer. -/
lemma bf_slot_bounds {h d i p : Nat} (hi : i < 8 ^ h)
    (hp : p ∈ bf_subtree h d i) :
    ∃ k, k ≤ d ∧ layer_start (h + k) ≤ p ∧ p < layer_start (h + k + 1) := by
  rw [mem_bf_subtree] at hp
  obtain ⟨k, hk, r, hr, rfl⟩ := hp
  refine ⟨k, hk, by omega, ?_⟩
  rw [layer_start_succ]
  have := addr_lt_next_layer hi hr
  omega

/-- A breadth-first subtree slot of a valid node is inside the buffer. -/
lemma bf_subtree_lt {S h d i p : Nat} (hi : i < 8 ^ h) (hhd : h + d ≤ S)
    (hp : p ∈ bf_subtree h d i) : p < subtree_length S := by
  obtain ⟨k, hk, _, hlt⟩ := bf_slot_bounds hi hp
  have h1 : layer_start (h + k + 1) ≤ subtree_length S := by
    rw [← layer_start_eq_subtree_length]
    exact layer_start_mono (by omega)
  omega

/-- A breadth-first subtree of depth `d` holds exactly `subtree_length d`
buffer slots. -/
lemma bf_subtree_card {h d i : Nat} (hi : i < 8 ^ h) :
    (bf_subtree h d i).card = subtree_length d := by
  rw [bf_subtree_eq_biUnion]
  rw [Finset.card_biUnion]
  · have hcard : ∀ k ∈ Finset.range (d + 1),
        ((Finset.range (8 ^ k)).image
          (fun r => layer_start (h + k) + i * 8 ^ k + r)).card = 8 ^ k := by
      intro k _
      rw [Finset.card_image_of_injective _ (add_right_injective _),
        Finset.card_range]
    rw [Finset.sum_congr rfl hcard, sum_range_pow8]
  · intro a _ b _ hab
    rw [Finset.disjoint_left]
    rintro p hp1 hp2
    simp only [Finset.mem_image, Finset.mem_range] at hp1 hp2
    obtain ⟨r1, hr1, he1⟩ := hp1
    obtain ⟨r2, hr2, he2⟩ := hp2
    have hb1 : layer_start (h + a) ≤ p ∧ p < layer_start (h + a + 1) := by
      rw [layer_start_succ]
      have := addr_lt_next_layer hi hr1
      omega
    have hb2 : layer_start (h + b) ≤ p ∧ p < layer_start (h + b + 1) := by
      rw [layer_start_succ]
      have := addr_lt_next_layer hi hr2
      omega
    rcases Nat.lt_or_ge a b with hab' | hab'
    · have := layer_start_mono (show h + a + 1 ≤ h + b by omega)
      omega
    · have hba : b < a := by omega
      have := layer_start_mono (show h + b + 1 ≤ h + a by omega)
      omega

section ClassicalIf

open Classical

/-- Loop invariant of `BreathFirst::fill`: starting iteration `k0` with
the cursor at the node's share of layer `h + k0`, the remaining `n`
iterations paint exactly the node's shares of layers `h + k0 .. h + k0 +
n - 1` with `v`. -/
lemma bf_fill_go_get? (v : T) (h idx : Nat) (hidx : idx < 8 ^ h) :
    ∀ (n k0 : Nat) (l : List T) (p : Nat),
      (BreathFirst.fill_go v h idx n k0
          (layer_start (h + k0) + idx * 8 ^ k0) l).get? p =
        if (∃ m, k0 ≤ m ∧ m < k0 + n ∧
              layer_start (h + m) + idx * 8 ^ m ≤ p ∧
              p < layer_start (h + m) + idx * 8 ^ m + 8 ^ m) ∧
            p < l.length
        then some v else l.get? p := by
  intro n
  induction n with
  | zero =>
    intro k0 l p
    simp only [BreathFirst.fill_go]
    rw [if_neg]
    rintro ⟨⟨m, h1, h2, _⟩, _⟩
    omega
  | succ n ih =>
    intro k0 l p
    simp only [BreathFirst.fill_go]
    have hcursor :
        layer_start (h + k0) + idx * 8 ^ k0 + layer_length k0 +
            (layer_length (h + k0) - (idx + 1) * layer_length k0) +
            idx * layer_length k0 * 8 =
          layer_start (h + (k0 + 1)) + idx * 8 ^ (k0 + 1) := by
      simp only [layer_length]
      have hb : (idx + 1) * 8 ^ k0 ≤ 8 ^ (h + k0) := by
        have := Nat.mul_le_mul_right (8 ^ k0) (show idx + 1 ≤ 8 ^ h by omega)
        rw [← pow_add] at this
        exact this
      have he1 : (idx + 1) * 8 ^ k0 = idx * 8 ^ k0 + 8 ^ k0 := by ring
      have he2 : idx * 8 ^ (k0 + 1) = idx * 8 ^ k0 * 8 := by ring
      have he3 : h + (k0 + 1) = (h + k0) + 1 := by omega
      rw [he3, layer_start_succ]
      omega
    rw [hcursor, ih (k0 + 1)]
    rw [write_run_length]
    simp only [layer_length]
    rw [write_run_get?]
    by_cases hrest : (∃ m, k0 + 1 ≤ m ∧ m < k0 + 1 + n ∧
        layer_start (h + m) + idx * 8 ^ m ≤ p ∧
        p < layer_start (h + m) + idx * 8 ^ m + 8 ^ m) ∧ p < l.length
    · rw [if_pos hrest, if_pos]
      obtain ⟨⟨m, hm1, hm2, hm3, hm4⟩, hlen⟩ := hrest
      exact ⟨⟨m, by omega, by omega, hm3, hm4⟩, hlen⟩
    · rw [if_neg hrest]
      by_cases hrun : layer_start (h + k0) + idx * 8 ^ k0 ≤ p ∧
          p < layer_start (h + k0) + idx * 8 ^ k0 + 8 ^ k0 ∧ p < l.length
      · rw [if_pos hrun, if_pos]
        exact ⟨⟨k0, le_refl _, by omega, hrun.1, hrun.2.1⟩, hrun.2.2⟩
      · rw [if_neg hrun, if_neg]
        rintro ⟨⟨m, hm1, hm2, hm3, hm4⟩, hlen⟩
        rcases Nat.eq_or_lt_of_le hm1 with rfl | hgt
        · exact hrun ⟨hm3, hm4, hlen⟩
        · exact hrest ⟨⟨m, by omega, by omega, hm3, hm4⟩, hlen⟩

end ClassicalIf

lemma bf_fill_length (l : List T) (base : Nat) (v : T)
    (size depth index : Nat) :
    (BreathFirst.fill l base v size depth index).length = l.length := by
  suffices hgo : ∀ (n k0 start : Nat) (l : List T),
      (BreathFirst.fill_go v (size - depth) index n k0 start l).length =
        l.length by
    exact hgo (depth + 1) 0 base l
  intro n
  induction n with
  | zero => intro k0 start l; rfl
  | succ n ih =>
    intro k0 start l
    rw [BreathFirst.fill_go, ih, write_run_length]

/-- `BreathFirst::fill` on a node of a valid position writes `v` into
exactly the node's breadth-first subtree slots and leaves every other
element of the buffer unchanged. -/
lemma bf_fill_get? (l : List T) (v : T) (S d i : Nat)
    (hd : d ≤ S) (hi : i < 8 ^ (S - d))
    (hlen : l.length = subtree_length S) (p : Nat) :
    (BreathFirst.fill l (bf_node_addr (S - d) i) v S d i).get? p =
      if p ∈ bf_subtree (S - d) d i then some v else l.get? p := by
  have hbase : bf_node_addr (S - d) i =
      layer_start (S - d + 0) + i * 8 ^ 0 := by
    simp [bf_node_addr]
  rw [BreathFirst.fill, hbase, bf_fill_go_get? v (S - d) i hi (d + 1) 0 l p]
  by_cases hmem : p ∈ bf_subtree (S - d) d i
  · rw [if_pos hmem, if_pos]
    constructor
    · rw [mem_bf_subtree] at hmem
      obtain ⟨k, hk, r, hr, rfl⟩ := hmem
      exact ⟨k, by omega, by omega, by omega, by omega⟩
    · rw [hlen]
      exact bf_subtree_lt hi (by omega) hmem
  · rw [if_neg hmem, if_neg]
    rintro ⟨⟨m, _, hm2, hm3, hm4⟩, _⟩
    apply hmem
    rw [mem_bf_subtree]
    exact ⟨m, by omega, p - (layer_start (S - d + m) + i * 8 ^ m),
      by omega, by omega⟩

lemma df_child_offset_succ (o : Octant) (s d i : Nat) :
    DepthFirst.child_offset o s (d + 1) i =
      1 + subtree_length d * o.as_usize := by
  simp [DepthFirst.child_offset]

/-- Breadth-first subtrees of distinct layer indices at the same height
and depth are disjoint. -/
lemma bf_subtree_disjoint {h d i1 i2 : Nat} (hi1 : i1 < 8 ^ h)
    (hi2 : i2 < 8 ^ h) (hne : i1 ≠ i2) :
    Disjoint (bf_subtree h d i1) (bf_subtree h d i2) := by
  rw [Finset.disjoint_left]
  intro p hp1 hp2
  rw [mem_bf_subtree] at hp1 hp2
  obtain ⟨k1, hk1, r1, hr1, he1⟩ := hp1
  obtain ⟨k2, hk2, r2, hr2, he2⟩ := hp2
  have hb1 := addr_lt_next_layer hi1 hr1
  have hb2 := addr_lt_next_layer hi2 hr2
  have hs1 : layer_start (h + k1 + 1) = layer_start (h + k1) + 8 ^ (h + k1) :=
    layer_start_succ _
  have hs2 : layer_start (h + k2 + 1) = layer_start (h + k2) + 8 ^ (h + k2) :=
    layer_start_succ _
  have hkk : k1 = k2 := by
    by_contra hkk
    rcases Nat.lt_or_ge k1 k2 with hlt | hge
    · have := layer_start_mono (show h + k1 + 1 ≤ h + k2 by omega)
      omega
    · have hlt2 : k2 < k1 := by omega
      have := layer_start_mono (show h + k2 + 1 ≤ h + k1 by omega)
      omega
  subst hkk
  rcases Nat.lt_or_ge i1 i2 with hlt | hge
  · have hmul : (i1 + 1) * 8 ^ k1 ≤ i2 * 8 ^ k1 :=
      Nat.mul_le_mul_right _ (by omega)
    have hex : (i1 + 1) * 8 ^ k1 = i1 * 8 ^ k1 + 8 ^ k1 := by ring
    omega
  · have hlt2 : i2 < i1 := by omega
    have hmul : (i2 + 1) * 8 ^ k1 ≤ i1 * 8 ^ k1 :=
      Nat.mul_le_mul_right _ (by omega)
    have hex : (i2 + 1) * 8 ^ k1 = i2 * 8 ^ k1 + 8 ^ k1 := by ring
    omega

/-- A breadth-first node's own slot never lies in a child's subtree. -/
lemma bf_node_addr_not_mem_child {h d i j : Nat} (hi : i < 8 ^ h)
    (hp : bf_node_addr h i ∈ bf_subtree (h + 1) d j) : False := by
  rw [mem_bf_subtree] at hp
  obtain ⟨k, _, r, _, he⟩ := hp
  have h1 : layer_start (h + 1) ≤ layer_start (h + 1 + k) :=
    layer_start_mono (by omega)
  have h2 : layer_start (h + 1) = layer_start h + 8 ^ h := layer_start_succ _
  simp only [bf_node_addr] at he
  omega

/-! ## `Octree` store (`octree.rs`) -/

namespace Octree

/-- `Octree::new` (`octree.rs`): allocate `subtree_length(Depth)` entries
and push a clone of `value` for each. -/
def new (value : T) (Depth : Nat) : List T :=
  List.replicate (subtree_length Depth) value

/-- `Octree::fill` (`octree.rs`): `data.clear()` followed by pushing
`subtree_length(Depth)` clones of `value`. -/
def fill (data : List T) (value : T) (Depth : Nat) : List T :=
  List.replicate (subtree_length Depth) value

/-- `Octree::layer_slice::<Depth>` (`octree.rs`): skip
`(0..h).map(layer_length).sum()` elements, take `layer_length h`. -/
def layer_slice (data : List T) (h : Nat) : List T :=
  (data.drop (((List.range h).map layer_length).sum)).take (layer_length h)

end Octree

/-- Root-to-node child navigation under the breadth-first layout
(`OctreeNode::child`, `octree.rs`): each step adds
`BreathFirst::child_offset` to the node's address and moves to
`(d - 1, i*8 + octant)`. -/
def nav_go (sizeofT S : Nat) : List Octant → Nat → Nat → Nat → Nat
  | [], addr, _, _ => addr
  | o :: rest, addr, d, i =>
    nav_go sizeofT S rest (addr + BreathFirst.child_offset sizeofT o S d i)
      (d - 1) (i * 8 + o.as_usize)

/-- Absolute buffer address of the node reached from the root by the
given octant path. -/
def nav_addr (sizeofT S : Nat) (path : List Octant) : Nat :=
  nav_go sizeofT S path 0 S 0

lemma replicate_get? (v : T) (n q : Nat) :
    (List.replicate n v).get? q = if q < n then some v else none := by
  induction n generalizing q with
  | zero => simp [List.replicate]
  | succ n ih =>
    cases q with
    | zero => simp [List.replicate]
    | succ q => simpa [List.replicate] using ih q

/-- Navigation along any valid path ends at a node address of the form
`layer_start h' + i'` with `i'` inside layer `h'`, within the buffer. -/
lemma nav_go_addr (sizeofT S : Nat) : ∀ (path : List Octant) (d i : Nat),
    path.length ≤ d → d ≤ S → i < 8 ^ (S - d) →
    ∃ d' i', d' ≤ S ∧ i' < 8 ^ (S - d') ∧
      nav_go sizeofT S path (bf_node_addr (S - d) i) d i =
        bf_node_addr (S - d') i' := by
  intro path
  induction path with
  | nil => exact fun d i _ hdS hi => ⟨d, i, hdS, hi, rfl⟩
  | cons o rest ih =>
    intro d i hlen hdS hi
    have hd0 : d ≠ 0 := by
      simp only [List.length_cons] at hlen
      omega
    simp only [nav_go]
    rw [bf_child_addr_step sizeofT o S d i hd0 hi]
    have hstep : S - d + 1 = S - (d - 1) := by omega
    have hi' : i * 8 + o.as_usize < 8 ^ (S - (d - 1)) := by
      rw [← hstep]
      have h1 : (i + 1) * 8 ≤ 8 ^ (S - d) * 8 :=
        Nat.mul_le_mul_right _ (by omega)
      have h2 : (8 : Nat) ^ (S - d + 1) = 8 ^ (S - d) * 8 := pow_succ 8 _
      have h3 := o.as_usize_lt
      omega
    rw [hstep]
    refine ih (d - 1) (i * 8 + o.as_usize) ?_ (by omega) hi'
    simp only [List.length_cons] at hlen
    omega

lemma nav_addr_lt (sizeofT S : Nat) (path : List Octant)
    (hlen : path.length ≤ S) : nav_addr sizeofT S path < subtree_length S := by
  have h0 : bf_node_addr (S - S) 0 = 0 := by
    simp [bf_node_addr, layer_start_zero, Nat.sub_self]
  obtain ⟨d', i', hd', hi', heq⟩ :=
    nav_go_addr sizeofT S path S 0 hlen (le_refl S)
      (by simpa using pow8_pos (S - S))
  rw [h0] at heq
  rw [nav_addr, heq]
  have h1 : layer_start (S - d' + 1) ≤ subtree_length S := by
    rw [← layer_start_eq_subtree_length]
    exact layer_start_mono (by omega)
  rw [layer_start_succ] at h1
  simp only [bf_node_addr]
  omega

lemma drop_replicate (v : T) (n k : Nat) :
    (List.replicate n v).drop k = List.replicate (n - k) v := by
  induction k generalizing n with
  | zero => simp
  | succ k ih =>
    cases n with
    | zero => simp [List.replicate]
    | succ n => simpa [List.replicate] using ih n

lemma take_replicate (v : T) (n k : Nat) :
    (List.replicate n v).take k = List.replicate (min k n) v := by
  induction k generalizing n with
  | zero => simp
  | succ k ih =>
    cases n with
    | zero => simp [List.replicate]
    | succ n =>
      show v :: (List.replicate n v).take k = _
      rw [ih n, Nat.succ_min_succ]
      rfl

/-- A layer slice of an all-`v` buffer of depth `D` is the all-`v` list
of that layer's length. -/
lemma layer_slice_replicate (v : T) (D h : Nat) (hh : h ≤ D) :
    Octree.layer_slice (List.replicate (subtree_length D) v) h =
      List.replicate (layer_length h) v := by
  have hb : layer_start h + layer_length h ≤ subtree_length D := by
    have h1 : layer_start (h + 1) ≤ subtree_length D := by
      rw [← layer_start_eq_subtree_length]
      exact layer_start_mono (by omega)
    rw [layer_start_succ] at h1
    simpa [layer_length] using h1
  have hskip : ((List.range h).map layer_length).sum = layer_start h := rfl
  rw [Octree.layer_slice, hskip, drop_replicate, take_replicate]
  congr 1
  omega

/-! ## Concrete scenarios (§8 of the spec) -/

/-- Breadth-first scenario buffer: depth-2 tree created with 1, then
`set_value(root, 2)`, `set_value(child(LDF), 3)`, `set_value(child(RUB),
4)`, `set_value(child(LDB).child(LDB), 5)`.  Node addresses and layer
indices are computed through `BreathFirst::child_offset` and the
`I*8 + octant` child-index rule, exactly as `OctreeNode::child` +
`set_value` do (`octree.rs`), with `sizeofT = 8` (a `usize` payload). -/
def c6_buf : List Nat :=
  let t0 := Octree.new 1 2
  let t1 := BreathFirst.fill t0 0 2 2 2 0
  let addrLDF := 0 + BreathFirst.child_offset 8 Octant.LDF 2 2 0
  let t2 := BreathFirst.fill t1 addrLDF 3 2 1 (0 * 8 + Octant.LDF.as_usize)
  let addrRUB := 0 + BreathFirst.child_offset 8 Octant.RUB 2 2 0
  let t3 := BreathFirst.fill t2 addrRUB 4 2 1 (0 * 8 + Octant.RUB.as_usize)
  let addrLDB := 0 + BreathFirst.child_offset 8 Octant.LDB 2 2 0
  let addrLDB2 := addrLDB +
    BreathFirst.child_offset 8 Octant.LDB 2 1 (0 * 8 + Octant.LDB.as_usize)
  BreathFirst.fill t3 addrLDB2 5 2 0
    ((0 * 8 + Octant.LDB.as_usize) * 8 + Octant.LDB.as_usize)

/-- Depth-first scenario buffer: depth-2 tree created with 1, then the
same four writes under the depth-first layout (`DepthFirst::fill` /
`DepthFirst::child_offset`, `lib.rs`), `sizeofT = 8`. -/
def c7_buf : List Nat :=
  let t0 := Octree.new 1 2
  let t1 := DepthFirst.fill 8 t0 0 2 2
  let addrLDF := 0 + DepthFirst.child_offset Octant.LDF 2 2 0
  let t2 := DepthFirst.fill 8 t1 addrLDF 3 1
  let addrRUB := 0 + DepthFirst.child_offset Octant.RUB 2 2 0
  let t3 := DepthFirst.fill 8 t2 addrRUB 4 1
  let addrLDB := 0 + DepthFirst.child_offset Octant.LDB 2 2 0
  let addrLDB2 := addrLDB + DepthFirst.child_offset Octant.LDB 2 1 4
  DepthFirst.fill 8 t3 addrLDB2 5 0

/-! ## `OctreeNode::propagate_common` (`octree.rs`)

Modelled for the default `BreathFirst` layout.  `child_ref` reads the
child value through `L::child_offset`; note that the inner comparison
loop of the source reads `other` with `child_i` (not `compared_i`). -/

/-- `child_ref` (`octree.rs`): value at `base + child_offset(octant)`.
`d0` stands in for the (never hit on valid inputs) out-of-range read. -/
def child_ref (sizeofT : Nat) (d0 : T) (l : List T) (S base : Nat)
    (octant depth index : Nat) : T :=
  l.getD (base + BreathFirst.child_offset sizeofT (octant_of_usize octant)
    S depth index) d0

/-- One iteration of the `'outer` counting loop of `propagate_layer`
(`octree.rs`): compare `child` against `other` — which the source reads
at octant `child_i` again, so the comparison is always against itself —
and bump the matched slot, else the child's own slot. -/
def counts_step [DecidableEq T] (vals : Nat → T) (counts : List Nat)
    (child_i : Nat) : List Nat :=
  let child := vals child_i
  match (List.range child_i).find?
      (fun compared_i => decide (child = vals child_i)) with
  | some c => counts.set c (counts.getD c 0 + 1)
  | none => counts.set child_i (counts.getD child_i 0 + 1)

/-- Rust `Iterator::max_by_key(|it| it.1).map(|it| it.0)` over
`counts.iter().enumerate()`: index of the maximal count, the LAST one on
ties. -/
def max_by_key_last (counts : List Nat) : Nat :=
  ((counts.enum.foldl
      (fun acc p =>
        match acc with
        | none => some p
        | some q => if q.2 ≤ p.2 then some p else some q)
      none).map Prod.fst).getD 0

/-- `propagate_layer` (`octree.rs`): no-op at depth 0; otherwise count
value groups among the 8 children with the (buggy) pairwise loop, pick
the slot with the largest count, and overwrite the node's own value slot
with that child's value. -/
def propagate_layer [DecidableEq T] (sizeofT : Nat) (d0 : T) (l : List T)
    (S base layer_depth layer_index : Nat) : List T :=
  if layer_depth = 0 then l
  else
    let vals := fun o =>
      child_ref sizeofT d0 l S base o layer_depth layer_index
    let counts := (List.range 8).foldl (counts_step vals)
      (List.replicate 8 0)
    let largest_i := max_by_key_last counts
    l.set base (vals largest_i)

/-- The counting loop of `propagate_layer` always produces
`[8, 0, 0, 0, 0, 0, 0, 0]`: since `other` is read with `child_i`, every
child with `child_i ≥ 1` compares equal to itself at `compared_i = 0`. -/
lemma counts_const [DecidableEq T] (vals : Nat → T) :
    (List.range 8).foldl (counts_step vals) (List.replicate 8 0) =
      [8, 0, 0, 0, 0, 0, 0, 0] := by
  have hstep : ∀ (counts : List Nat) (n : Nat),
      counts_step vals counts (n + 1) =
        counts.set 0 (counts.getD 0 0 + 1) := by
    intro counts n
    have hfind : (List.range (n + 1)).find?
        (fun compared_i => decide True) = some 0 := by
      rw [List.range_succ_eq_map, List.find?_cons]
      simp
    simp only [counts_step]
    rw [hfind]
  have h0 : counts_step vals (List.replicate 8 0) 0 =
      [1, 0, 0, 0, 0, 0, 0, 0] := rfl
  rw [show List.range 8 = [0, 1, 2, 3, 4, 5, 6, 7] from rfl]
  simp only [List.foldl]
  rw [h0, hstep, hstep, hstep, hstep, hstep, hstep, hstep]
  rfl

/-- Consequence of the buggy comparison: `propagate_layer` on any node
of nonzero depth overwrites the node's value slot with child LDF's value
(octant 0), regardless of the children's actual value frequencies. -/
lemma propagate_layer_always_first_child [DecidableEq T] (sizeofT : Nat)
    (d0 : T) (l : List T) (S base d i : Nat) (hd : d ≠ 0) :
    propagate_layer sizeofT d0 l S base d i =
      l.set base (child_ref sizeofT d0 l S base 0 d i) := by
  simp only [propagate_layer, if_neg hd, counts_const]
  rfl

/-- `subtree_size` under wrapping `usize` arithmetic. -/
def subtree_size_wrap (w sizeofT depth : Nat) : Nat :=
  subtree_length_wrap w depth * sizeofT % 2 ^ w

end FlatOctree

open FlatOctree

/-- C1: `subtree_length` satisfies the recurrence `subtree_length 0 = 1`,
`subtree_length (d+1) = 1 + 8 * subtree_length d`, equals the closed form
`(8^(d+1) - 1) / 7` for every depth, with values `1, 9, 73, 585` at depths
`0..3`, and `layer_length h = 8^h` for every height. -/
theorem C1_subtree_length_closed_form :
    subtree_length 0 = 1 ∧
    (∀ d : Nat, subtree_length (d + 1) = 1 + 8 * subtree_length d) ∧
    (∀ d : Nat, subtree_length d = (8 ^ (d + 1) - 1) / 7) ∧
    subtree_length 0 = 1 ∧ subtree_length 1 = 9 ∧
    subtree_length 2 = 73 ∧ subtree_length 3 = 585 ∧
    (∀ h : Nat, layer_length h = 8 ^ h) := by
  refine ⟨rfl, ?_, subtree_length_closed_form, rfl, rfl, rfl, rfl, fun _ => rfl⟩
  intro d
  simp [subtree_length]
  omega

/-- C2: breadth-first child addressing. For a node of remaining depth `d`
with `0 < d ≤ S`, height `h = S - d` and layer index `i < 8^h`, the
computed offset is `(8^h - i) + (i*8 + octant)`, and adding it to the
node's absolute position `layer_start h + i` gives the absolute position
of the node at height `h+1` with layer index `i*8 + octant`. -/
theorem C2_breadth_first_child_addressing
    (sizeofT : Nat) (o : Octant) (S d i : Nat)
    (hd : 0 < d) (hdS : d ≤ S) (hi : i < 8 ^ (S - d)) :
    BreathFirst.child_offset sizeofT o S d i =
      (8 ^ (S - d) - i) + (i * 8 + o.as_usize) ∧
    bf_node_addr (S - d) i + BreathFirst.child_offset sizeofT o S d i =
      bf_node_addr (S - d + 1) (i * 8 + o.as_usize) := by
  constructor
  · simp [BreathFirst.child_offset, Nat.pos_iff_ne_zero.mp hd, layer_length]
  · exact bf_child_addr_step sizeofT o S d i (by omega) hi

/-- C2 witness: the addressing theorem at `S = 2`, `d = 1`, `i = 3`,
octant RUB (`sizeofT = 8`). -/
theorem C2_breadth_first_child_addressing_witness :
    (0 < 1 ∧ 1 ≤ 2 ∧ 3 < 8 ^ (2 - 1)) ∧
    (BreathFirst.child_offset 8 Octant.RUB 2 1 3 =
        (8 ^ (2 - 1) - 3) + (3 * 8 + Octant.RUB.as_usize) ∧
      bf_node_addr (2 - 1) 3 + BreathFirst.child_offset 8 Octant.RUB 2 1 3 =
        bf_node_addr (2 - 1 + 1) (3 * 8 + Octant.RUB.as_usize)) :=
  ⟨⟨by decide, by decide, by decide⟩,
    C2_breadth_first_child_addressing 8 Octant.RUB 2 1 3
      (by decide) (by decide) (by decide)⟩

/-- C3: `set_value` delegates to the active layout's `fill` at the node's
own buffer position; for every valid node position it writes `v` into
exactly the `subtree_length d` buffer slots of that node's subtree — the
contiguous run under the depth-first layout, the layer-scattered slot set
under the breadth-first layout — and leaves every other element
unchanged; both subtree slot sets have exactly `subtree_length d`
elements. -/
theorem C3_set_value_fills_exact_subtree {T : Type}
    (ldf lbf : List T) (v : T) (sizeofT base d S i : Nat)
    (hs : 0 < sizeofT) (hbound : base + subtree_length d ≤ ldf.length)
    (hd : d ≤ S) (hi : i < 8 ^ (S - d))
    (hlen : lbf.length = subtree_length S) :
    ((∀ p, (DepthFirst.fill sizeofT ldf base v d).get? p =
        if p ∈ df_subtree d base then some v else ldf.get? p) ∧
      (df_subtree d base).card = subtree_length d) ∧
    ((∀ p, (BreathFirst.fill lbf (bf_node_addr (S - d) i) v S d i).get? p =
        if p ∈ bf_subtree (S - d) d i then some v else lbf.get? p) ∧
      (bf_subtree (S - d) d i).card = subtree_length d) := by
  refine ⟨⟨?_, ?_⟩, ?_, ?_⟩
  · intro p
    rw [df_fill_get? sizeofT ldf base v d hs p]
    by_cases hmem : p ∈ df_subtree d base
    · have hlt : p < ldf.length := by
        rw [df_subtree_eq_Ico, Finset.mem_Ico] at hmem
        omega
      rw [if_pos ⟨hmem, hlt⟩, if_pos hmem]
    · rw [if_neg (by tauto), if_neg hmem]
  · rw [df_subtree_eq_Ico, Nat.card_Ico]
    omega
  · exact fun p => bf_fill_get? lbf v S d i hd hi hlen p
  · exact bf_subtree_card hi

/-- C3 witness: the frame theorem at `sizeofT = 1`, a 9-element
depth-first buffer with `base = 0`, `d = 1`, and a breadth-first tree of
max depth `S = 1` at node `(d, i) = (1, 0)`. -/
theorem C3_set_value_fills_exact_subtree_witness :
    ((0 : Nat) < 1 ∧
      0 + subtree_length 1 ≤ (List.replicate 9 (0 : Nat)).length ∧
      1 ≤ 1 ∧ 0 < 8 ^ (1 - 1) ∧
      (List.replicate 9 (0 : Nat)).length = subtree_length 1) ∧
    (((∀ p, (DepthFirst.fill 1 (List.replicate 9 (0 : Nat)) 0 5 1).get? p =
        if p ∈ df_subtree 1 0 then some 5
        else (List.replicate 9 (0 : Nat)).get? p) ∧
      (df_subtree 1 0).card = subtree_length 1) ∧
    ((∀ p, (BreathFirst.fill (List.replicate 9 (0 : Nat))
          (bf_node_addr (1 - 1) 0) 5 1 1 0).get? p =
        if p ∈ bf_subtree (1 - 1) 1 0 then some 5
        else (List.replicate 9 (0 : Nat)).get? p) ∧
      (bf_subtree (1 - 1) 1 0).card = subtree_length 1)) :=
  ⟨⟨by decide, by decide, by decide, by decide, by decide⟩,
    C3_set_value_fills_exact_subtree (List.replicate 9 (0 : Nat))
      (List.replicate 9 (0 : Nat)) 5 1 0 1 1 0
      (by decide) (by decide) (by decide) (by decide) (by decide)⟩

/-- C4 counterexample: under the breadth-first layout the child subtree
slot sets together with the node's own slot do NOT tile the interval
`[node_address, node_address + subtree_length d)`.  Take max depth 2 and
the node at height 1, layer index 0 (remaining depth `d = 1`, address 1):
buffer position 2 lies in `[1, 1 + subtree_length 1) = [1, 10)` but is a
sibling's slot, not part of this node's subtree. -/
theorem C4_bf_interval_tiling_counterexample :
    ({bf_node_addr 1 0} ∪ Finset.univ.biUnion
        (fun o : Octant => bf_subtree (1 + 1) (1 - 1) (0 * 8 + o.as_usize)))
      ≠ Finset.Ico (bf_node_addr 1 0) (bf_node_addr 1 0 + subtree_length 1) ∧
    2 ∈ Finset.Ico (bf_node_addr 1 0) (bf_node_addr 1 0 + subtree_length 1) ∧
    2 ∉ ({bf_node_addr 1 0} ∪ Finset.univ.biUnion
        (fun o : Octant => bf_subtree (1 + 1) (1 - 1) (0 * 8 + o.as_usize))) := by
  refine ⟨?_, by decide, by decide⟩
  intro h
  have h2 : (2 : Nat) ∈ ({bf_node_addr 1 0} ∪ Finset.univ.biUnion
      (fun o : Octant => bf_subtree (1 + 1) (1 - 1) (0 * 8 + o.as_usize))) := by
    rw [h]; decide
  exact absurd h2 (by decide)

/-- C4 (amended): for every node of remaining depth `d > 0` and distinct
octants, the child offsets differ under both layouts; the 8 child subtree
slot sets are pairwise disjoint and never contain the node's own slot;
together with the node's own slot they exactly tile the node's subtree
slot set — which under the depth-first layout is precisely the interval
`[node_address, node_address + subtree_length d)`, while under the
breadth-first layout it is the layer-scattered set of `subtree_length d`
slots (not that interval in general, see the counterexample). -/
theorem C4_child_ranges_disjoint_and_tile
    (sizeofT size d base h i : Nat) (o1 o2 : Octant)
    (hd : d ≠ 0) (hne : o1 ≠ o2) (hi : i < 8 ^ h) :
    DepthFirst.child_offset o1 size d i ≠
      DepthFirst.child_offset o2 size d i ∧
    BreathFirst.child_offset sizeofT o1 size d i ≠
      BreathFirst.child_offset sizeofT o2 size d i ∧
    Disjoint (df_subtree (d - 1) (base + DepthFirst.child_offset o1 size d i))
      (df_subtree (d - 1) (base + DepthFirst.child_offset o2 size d i)) ∧
    base ∉ df_subtree (d - 1) (base + DepthFirst.child_offset o1 size d i) ∧
    ({base} ∪ Finset.univ.biUnion
        (fun o : Octant =>
          df_subtree (d - 1) (base + DepthFirst.child_offset o size d i)) =
      Finset.Ico base (base + subtree_length d)) ∧
    Disjoint (bf_subtree (h + 1) (d - 1) (i * 8 + o1.as_usize))
      (bf_subtree (h + 1) (d - 1) (i * 8 + o2.as_usize)) ∧
    bf_node_addr h i ∉ bf_subtree (h + 1) (d - 1) (i * 8 + o1.as_usize) ∧
    ({bf_node_addr h i} ∪ Finset.univ.biUnion
        (fun o : Octant => bf_subtree (h + 1) (d - 1) (i * 8 + o.as_usize)) =
      bf_subtree h d i) ∧
    (bf_subtree h d i).card = subtree_length d := by
  obtain ⟨d', rfl⟩ : ∃ d', d = d' + 1 := ⟨d - 1, by omega⟩
  have hsl := subtree_length_pos d'
  have hab : o1.as_usize ≠ o2.as_usize :=
    fun hc => hne (Octant.as_usize_injective hc)
  have ha1 := o1.as_usize_lt
  have ha2 := o2.as_usize_lt
  have hchild_lt : ∀ o : Octant, i * 8 + o.as_usize < 8 ^ (h + 1) := by
    intro o
    have h1 : (i + 1) * 8 ≤ 8 ^ h * 8 := Nat.mul_le_mul_right _ (by omega)
    have h2 : (8 : Nat) ^ (h + 1) = 8 ^ h * 8 := pow_succ 8 h
    have h3 := o.as_usize_lt
    omega
  simp only [Nat.add_sub_cancel]
  refine ⟨?_, ?_, ?_, ?_, ?_, ?_, ?_, ?_, bf_subtree_card hi⟩
  · rw [df_child_offset_succ, df_child_offset_succ]
    intro hc
    exact hab (Nat.eq_of_mul_eq_mul_left hsl (by omega))
  · simp only [BreathFirst.child_offset, if_neg (Nat.succ_ne_zero d')]
    omega
  · rw [df_child_offset_succ, df_child_offset_succ, df_subtree_eq_Ico,
      df_subtree_eq_Ico, Finset.disjoint_left]
    intro p hp1 hp2
    rw [Finset.mem_Ico] at hp1 hp2
    rcases Nat.lt_or_ge o1.as_usize o2.as_usize with hlt | hge
    · have := Nat.mul_le_mul_left (subtree_length d')
        (show o1.as_usize + 1 ≤ o2.as_usize by omega)
      have he : subtree_length d' * (o1.as_usize + 1) =
          subtree_length d' * o1.as_usize + subtree_length d' := by ring
      omega
    · have hlt2 : o2.as_usize < o1.as_usize := by omega
      have := Nat.mul_le_mul_left (subtree_length d')
        (show o2.as_usize + 1 ≤ o1.as_usize by omega)
      have he : subtree_length d' * (o2.as_usize + 1) =
          subtree_length d' * o2.as_usize + subtree_length d' := by ring
      omega
  · rw [df_child_offset_succ, df_subtree_eq_Ico, Finset.mem_Ico]
    omega
  · have hunfold : df_subtree (d' + 1) base =
        {base} ∪ Finset.univ.biUnion
          (fun o : Octant =>
            df_subtree d' (base + DepthFirst.child_offset o size (d' + 1) i)) := by
      simp only [df_subtree, df_child_offset_succ]
    rw [← hunfold, df_subtree_eq_Ico]
  · exact bf_subtree_disjoint (hchild_lt o1) (hchild_lt o2) (by omega)
  · exact fun hc => bf_node_addr_not_mem_child hi hc
  · rfl

/-- C4 witness: the disjointness/tiling theorem at max depth 2,
`d = 1`, DF base 0, BF node `(h, i) = (1, 0)`, octants LDF and RUB. -/
theorem C4_child_ranges_disjoint_and_tile_witness :
    ((1 : Nat) ≠ 0 ∧ Octant.LDF ≠ Octant.RUB ∧ (0 : Nat) < 8 ^ 1) ∧
    (DepthFirst.child_offset Octant.LDF 2 1 0 ≠
      DepthFirst.child_offset Octant.RUB 2 1 0 ∧
    BreathFirst.child_offset 8 Octant.LDF 2 1 0 ≠
      BreathFirst.child_offset 8 Octant.RUB 2 1 0 ∧
    Disjoint (df_subtree (1 - 1) (0 + DepthFirst.child_offset Octant.LDF 2 1 0))
      (df_subtree (1 - 1) (0 + DepthFirst.child_offset Octant.RUB 2 1 0)) ∧
    0 ∉ df_subtree (1 - 1) (0 + DepthFirst.child_offset Octant.LDF 2 1 0) ∧
    ({0} ∪ Finset.univ.biUnion
        (fun o : Octant =>
          df_subtree (1 - 1) (0 + DepthFirst.child_offset o 2 1 0)) =
      Finset.Ico 0 (0 + subtree_length 1)) ∧
    Disjoint (bf_subtree (1 + 1) (1 - 1) (0 * 8 + Octant.LDF.as_usize))
      (bf_subtree (1 + 1) (1 - 1) (0 * 8 + Octant.RUB.as_usize)) ∧
    bf_node_addr 1 0 ∉ bf_subtree (1 + 1) (1 - 1) (0 * 8 + Octant.LDF.as_usize) ∧
    ({bf_node_addr 1 0} ∪ Finset.univ.biUnion
        (fun o : Octant => bf_subtree (1 + 1) (1 - 1) (0 * 8 + o.as_usize)) =
      bf_subtree 1 1 0) ∧
    (bf_subtree 1 1 0).card = subtree_length 1) :=
  ⟨⟨by decide, by decide, by decide⟩,
    C4_child_ranges_disjoint_and_tile 8 2 1 0 1 0 Octant.LDF Octant.RUB
      (by decide) (by decide) (by decide)⟩

/-- C5: round-trip initialization. `Octree::new(v)` with depth `D` builds
a buffer of exactly `subtree_length D` elements, every one equal to `v`;
every element of every `layer_slice h` with `h ≤ D` reads `v`; reading
any node reached by recursive child navigation reads `v`; and
`Octree::fill(v)` on an existing buffer re-establishes exactly that
state. -/
theorem C5_new_fill_roundtrip {T : Type} (v : T) (lold : List T)
    (D h p sizeofT : Nat) (path : List Octant)
    (hh : h ≤ D) (hp : p < layer_length h) (hpath : path.length ≤ D) :
    (Octree.new v D).length = subtree_length D ∧
    (∀ q, q < subtree_length D → (Octree.new v D).get? q = some v) ∧
    Octree.layer_slice (Octree.new v D) h =
      List.replicate (layer_length h) v ∧
    (Octree.layer_slice (Octree.new v D) h).get? p = some v ∧
    (Octree.new v D).get? (nav_addr sizeofT D path) = some v ∧
    Octree.fill lold v D = Octree.new v D := by
  have hslice := layer_slice_replicate v D h hh
  refine ⟨List.length_replicate _ _, ?_, hslice, ?_, ?_, rfl⟩
  · intro q hq
    rw [Octree.new, replicate_get?, if_pos hq]
  · rw [Octree.new, hslice, replicate_get?, if_pos hp]
  · rw [Octree.new, replicate_get?, if_pos (nav_addr_lt sizeofT D path hpath)]

/-- C5 witness: round-trip at depth 1, value 7, layer 1, slice index 3,
navigation path `[LDB]`, over an arbitrary previous buffer `[1, 2, 3]`. -/
theorem C5_new_fill_roundtrip_witness :
    ((1 : Nat) ≤ 1 ∧ 3 < layer_length 1 ∧
      ([Octant.LDB] : List Octant).length ≤ 1) ∧
    ((Octree.new (7 : Nat) 1).length = subtree_length 1 ∧
    (∀ q, q < subtree_length 1 → (Octree.new (7 : Nat) 1).get? q = some 7) ∧
    Octree.layer_slice (Octree.new (7 : Nat) 1) 1 =
      List.replicate (layer_length 1) 7 ∧
    (Octree.layer_slice (Octree.new (7 : Nat) 1) 1).get? 3 = some 7 ∧
    (Octree.new (7 : Nat) 1).get? (nav_addr 8 1 [Octant.LDB]) = some 7 ∧
    Octree.fill [1, 2, 3] (7 : Nat) 1 = Octree.new (7 : Nat) 1) :=
  ⟨⟨by decide, by decide, by decide⟩,
    C5_new_fill_roundtrip 7 [1, 2, 3] 1 1 3 8 [Octant.LDB]
      (by decide) (by decide) (by decide)⟩

/-- C6: breadth-first scenario.  The 73-element buffer is in layout order
`[root | 8 depth-1 nodes | 64 depth-2 nodes]`; the layer-1 slice shows 3
at octant LDF's position (index 0) and 4 at RUB's (index 7); the layer-2
slice shows the depth-2 overrides exactly at the computed
`layerIndex*8 + octant` positions — 3 at `0*8+o` (LDF's children), 5 at
`4*8+4` (the LDB→LDB write), 4 at `7*8+o` (RUB's children) — and 2
everywhere else in that slice. -/
theorem C6_breadth_first_scenario :
    c6_buf.length = 73 ∧
    c6_buf = Octree.layer_slice c6_buf 0 ++ Octree.layer_slice c6_buf 1 ++
      Octree.layer_slice c6_buf 2 ∧
    Octree.layer_slice c6_buf 0 = [2] ∧
    Octree.layer_slice c6_buf 1 = [3, 2, 2, 2, 2, 2, 2, 4] ∧
    Octree.layer_slice c6_buf 2 =
      [3, 3, 3, 3, 3, 3, 3, 3,
       2, 2, 2, 2, 2, 2, 2, 2, 2, 2, 2, 2, 2, 2, 2, 2,
       2, 2, 2, 2, 2, 2, 2, 2, 2, 2, 2, 2, 5, 2, 2, 2,
       2, 2, 2, 2, 2, 2, 2, 2, 2, 2, 2, 2, 2, 2, 2, 2,
       4, 4, 4, 4, 4, 4, 4, 4] := by
  refine ⟨by decide, by decide, by decide, by decide, by decide⟩

/-- C7 counterexample: the claimed depth-first buffer shape is wrong at
concrete indices.  The claim puts 29 leading entries of 2 and the
value 5 at position 47; the code's buffer has 3 already at position 1
(the LDF subtree starts right after the root, per
`DepthFirst::child_offset(LDF, depth=2) = 1`) and the 5 at position 42
(`= 1 + 9*4 + 1 + 1*4`), while position 47 still holds 2. -/
theorem C7_depth_first_scenario_counterexample :
    c7_buf.get? 1 = some 3 ∧ (3 : Nat) ≠ 2 ∧
    c7_buf.get? 47 = some 2 ∧ (2 : Nat) ≠ 5 ∧
    c7_buf.get? 42 = some 5 := by
  refine ⟨by decide, by decide, by decide, by decide, by decide⟩

/-- C7 (amended): depth-first scenario.  The 73-element flattened buffer
is `[2]` (root), then 9 entries of 3 (the LDF subtree at positions
1–9), then entries of 2 through the RDF/LUF/RUF subtrees, then the LDB
subtree at positions 37–45 with position 42 (its LDB child) set to 5 and
the rest 2, then the remaining siblings all 2, then the RUB subtree as
the final 9 entries (64–72) of 4 — matching the closed-form depth-first
offsets `1 + subtree_length(d-1)*octant`. -/
theorem C7_depth_first_scenario :
    c7_buf.length = 73 ∧
    c7_buf =
      [2] ++ List.replicate 9 3 ++ List.replicate 27 2 ++
        (List.replicate 5 2 ++ [5] ++ List.replicate 3 2) ++
        List.replicate 18 2 ++ List.replicate 9 4 := by
  refine ⟨by decide, by decide⟩

/-- C8: `propagate_common` at the failing input.  On a depth-1 tree with
children values `[9, 7, 7, 7, 7, 7, 7, 7]` (7 is the value of 7 of the 8
children, 9 of just one), the pass overwrites the node with 9 — child
LDF's value — not the most frequent value 7: the inner comparison loop
reads `other` at `child_i` instead of `compared_i`, so every child
matches itself and `counts[0]` always reaches 8.  Only the node's own
slot changes. -/
theorem C8_propagate_common_copies_first_child :
    propagate_layer 8 0 [1, 9, 7, 7, 7, 7, 7, 7, 7] 1 0 1 0 =
      [9, 9, 7, 7, 7, 7, 7, 7, 7] ∧
    (List.range 8).map
        (fun o => child_ref 8 0 [1, 9, 7, 7, 7, 7, 7, 7, 7] 1 0 o 1 0) =
      [9, 7, 7, 7, 7, 7, 7, 7] ∧
    ([9, 7, 7, 7, 7, 7, 7, 7] : List Nat).count 7 = 7 ∧
    ([9, 7, 7, 7, 7, 7, 7, 7] : List Nat).count 9 = 1 ∧
    (9 : Nat) ≠ 7 := by
  refine ⟨by decide, by decide, by decide, by decide, by decide⟩

/-- C9: the size computations perform no overflow check.  On a 64-bit
platform, `subtree_length` is exact up to depth 21 but at depth 22 the
wrapping (release-mode) arithmetic silently returns
`subtree_length 22 % 2^64` — a strictly smaller value — and
`subtree_size::<u64>` (element size 8) already wraps at depth 21; both
functions are total with no failure path, so no overflow is detected or
reported before allocation. -/
theorem C9_size_overflow_wraps_silently :
    subtree_length_wrap 64 21 = subtree_length 21 ∧
    subtree_length_wrap 64 22 = subtree_length 22 % 2 ^ 64 ∧
    subtree_length_wrap 64 22 ≠ subtree_length 22 ∧
    subtree_length_wrap 64 22 < subtree_length 22 ∧
    subtree_size_wrap 64 8 21 ≠ subtree_size 8 21 := by
  refine ⟨by decide, by decide, by decide, by decide, by decide⟩

/-- C10: at depth 0 both layout offset functions are total constants —
`DepthFirst::child_offset` returns `1` for every octant, size and index,
and `BreathFirst::child_offset::<T>` returns `size_of::<T>()`; neither
signals an error. -/
theorem C10_leaf_child_offset_total :
    ∀ (o : Octant) (sizeofT size index : Nat),
      DepthFirst.child_offset o size 0 index = 1 ∧
      BreathFirst.child_offset sizeofT o size 0 index = sizeofT := by
  intro o sizeofT size index
  exact ⟨rfl, rfl⟩
